import Mathlib

/-!
Shallow embedding of the gomusic playback-queue engine (src/main.go).

The Go `tracksQueue` struct is modelled by `Queue`.  Streams are modelled by
their observable data: a decoder (`beep.StreamSeekCloser`) by its position and
length, a resampler (`beep.Resample`) by its constructor arguments, and the
installed composite streamer (`ctrl.Streamer`) by the list of emissions it
would produce when drained (each non-ended track's resampled audio followed by
the `beep.Callback` end-of-track notification).  The stored gain float
(`volume.Volume`) is everywhere the same function of `volumeChange`, so it is
kept as the derived function `gainOf`; `math.Log10`/`math.Pow` are idealized
as exact real operations, with `math.Log10 0 = -Inf` (and `10^(-Inf) = 0`)
encoded by `Option ℝ` (`none` standing for the non-finite value).

Go indexing panics out of range; the corresponding Lean functions return the
state unchanged (resp. `none`) there.  All claims are stated with the index in
range or on reachable states, where the panic cases do not arise.
-/

/-- The fixed target sample rate (`basicSampleRate` in main.go). -/
def basicSampleRate : Nat := 44100

/-- Supported file formats (`supportedFormats` in main.go). -/
def supportedFormats : List String := ["mp3"]

/-- `beep.Format`: only the sample rate is used by the engine. -/
structure GoFormat where
  sampleRate : Nat
deriving DecidableEq

/-- A `beep.Resample(quality, fromRate, toRate, stream)` streamer, modelled by
its constructor arguments (the wrapped stream is the track's own decoder). -/
structure Resampler where
  quality : Nat
  fromRate : Nat
  toRate : Nat
deriving DecidableEq

/-- The `track` struct of main.go.  The decoder stream is modelled by its
position and length (`stream.Position()`, `stream.Len()`). -/
structure Track where
  path : String
  pos : Int
  len : Int
  resampled : Resampler
  format : GoFormat
  ended : Bool
deriving DecidableEq

/-- One emission of a composite streamer: either the resampled audio of a
track, or the `beep.Callback` end-of-track notification. -/
inductive StreamElem where
  | sound (r : Resampler)
  | notif
deriving DecidableEq

/-- The `tracksQueue` struct of main.go.  `installed` is `ctrl.Streamer`,
`speakerHas` records whether `speaker.Play` currently has the queue's volume
wrapper queued (`speaker.Clear` drops it).  `volume.Volume` is derived from
`volumeChange` by `gainOf` below; `volume.Base` is the constant 10. -/
structure Queue where
  queue : List Track
  currentTrack : Int
  installed : List StreamElem
  paused : Bool
  volumeSilent : Bool
  volumeChange : Int
  speakerHas : Bool
deriving DecidableEq

/-- The zero value `track{}` of Go. -/
def emptyTrack : Track :=
  { path := "", pos := 0, len := 0, resampled := ⟨0, 0, 0⟩, format := ⟨0⟩,
    ended := false }

/-- `newTrackQueue()` together with the zero-valued fields. -/
def initQueue : Queue :=
  { queue := [], currentTrack := 0, installed := [], paused := false,
    volumeSilent := false, volumeChange := 0, speakerHas := false }

/-- The `beep.Seq(track.resampled, beep.Callback(...))` built for one track in
`rebuildStreamer`. -/
def seqStreamers (t : Track) : List StreamElem :=
  [StreamElem.sound t.resampled, StreamElem.notif]

/-- The loop of `rebuildStreamer`: collect a `beep.Seq` for every non-ended
track, in queue order. -/
def rebuildLoop : List Track → List (List StreamElem)
  | [] => []
  | t :: rest =>
    if !t.ended then seqStreamers t :: rebuildLoop rest else rebuildLoop rest

/-- `rebuildStreamer`: installs `beep.Seq(streamers...)` into `ctrl.Streamer`
under the speaker lock. -/
def rebuildStreamer (s : Queue) : Queue :=
  { s with installed := (rebuildLoop s.queue).flatten }

/-- `play()`: `speaker.Clear()`, then `speaker.Play(&s.volume)` if the queue
is non-empty. -/
def play (s : Queue) : Queue :=
  { s with speakerHas := !s.queue.isEmpty }

/-- `speaker.Clear()` alone. -/
def speakerClear (s : Queue) : Queue :=
  { s with speakerHas := false }

/-- `s.queue[i].ended = b`.  Go panics when `i` is out of range; here the
list is returned unchanged (the claims only use in-range indices). -/
def setEnded (l : List Track) (i : Int) (b : Bool) : List Track :=
  if i < 0 then l
  else
    match l[i.toNat]? with
    | none => l
    | some t => l.set i.toNat { t with ended := b }

/-- `nextTrack()` of main.go. -/
def nextTrack (s : Queue) : Queue :=
  let s1 :=
    if s.queue.length ≠ 0 then
      { s with queue := setEnded s.queue s.currentTrack true }
    else s
  if s1.currentTrack + 1 ≥ (s1.queue.length : Int) then s1
  else
    play (speakerClear (rebuildStreamer { s1 with currentTrack := s1.currentTrack + 1 }))

/-- `prevTrack()` of main.go. -/
def prevTrack (s : Queue) : Queue :=
  if s.currentTrack - 1 < 0 then s
  else
    let s1 := { s with currentTrack := s.currentTrack - 1 }
    let s2 := { s1 with queue := setEnded s1.queue s1.currentTrack false }
    play (speakerClear (rebuildStreamer s2))

/-- The resampler constructed at load time (main.go line 74):
`beep.Resample(4, s.format.SampleRate, basicSampleRate, s.stream)`. -/
def loadResampler (f : GoFormat) : Resampler :=
  ⟨4, f.sampleRate, basicSampleRate⟩

/-- The resampler constructed by `restartTrack` (main.go line 193):
`beep.Resample(4, basicSampleRate, currentSong.format.SampleRate, ...)` —
note the argument order as written in the source. -/
def restartResampler (f : GoFormat) : Resampler :=
  ⟨4, basicSampleRate, f.sampleRate⟩

/-- `restartTrack(index)` of main.go: clears `ended`, records whether the
decoder was at its end, seeks the decoder to 0 unconditionally, and only when
it was at the end reconstructs the resampled view, rebuilds and plays. -/
def restartTrack (s : Queue) (i : Int) : Queue :=
  if i < 0 then s
  else
    match s.queue[i.toNat]? with
    | none => s
    | some t =>
      let wasEnded := t.pos == t.len
      if wasEnded then
        let t2 : Track :=
          { t with ended := false, pos := 0, resampled := restartResampler t.format }
        play (rebuildStreamer { s with queue := s.queue.set i.toNat t2 })
      else
        let t1 : Track := { t with ended := false, pos := 0 }
        { s with queue := s.queue.set i.toNat t1 }

/-- `restartCurrentTrack()` of main.go. -/
def restartCurrentTrack (s : Queue) : Queue :=
  if s.queue.length = 0 then s else restartTrack s s.currentTrack

/-- `restartQueue()` of main.go: restart every index in order, reset
`currentTrack` to 0, rebuild once more. -/
def restartQueue (s : Queue) : Queue :=
  let s1 := (List.range s.queue.length).foldl (fun q (i : Nat) => restartTrack q (i : Int)) s
  rebuildStreamer { s1 with currentTrack := 0 }

/-- `addTrack(track)` of main.go: append, then rebuild. -/
def addTrack (s : Queue) (t : Track) : Queue :=
  rebuildStreamer { s with queue := s.queue ++ [t] }

/-- `clear()` of main.go: close all streams (resource release not modelled),
install `nil`, reset index and queue.  The speaker itself is not cleared. -/
def clearQueue (s : Queue) : Queue :=
  { s with installed := [], currentTrack := 0, queue := [] }

/-- `changeVolume(percents)` of main.go.  The stored `volume.Volume` float is
the derived `gainOf s.volumeChange`; `speaker.Clear(); speaker.Play(...)` runs
unconditionally on acceptance. -/
def changeVolume (s : Queue) (percents : Int) : Queue :=
  if s.volumeChange + percents < -100 then s
  else
    let vc := s.volumeChange + percents
    { s with volumeChange := vc, volumeSilent := vc == -100, speakerHas := true }

/-- `pause()` of main.go. -/
def pauseQ (s : Queue) : Queue := { s with paused := true }

/-- `unpause()` of main.go. -/
def unpauseQ (s : Queue) : Queue := { s with paused := false }

/-- `getCurrentTrack()` of main.go: `(track{}, false)` on an empty queue,
otherwise `(queue[currentTrack], true)`.  `none` marks the out-of-range panic
case. -/
def getCurrentTrack (s : Queue) : Option (Track × Bool) :=
  if s.queue.length = 0 then some (emptyTrack, false)
  else if s.currentTrack < 0 then none
  else (s.queue[s.currentTrack.toNat]?).map (fun t => (t, true))

/-- `filepath.Base`: the last element of the path, with trailing slashes
removed; "." for the empty path, "/" for an all-slash path. -/
def goBase (p : String) : String :=
  if p = "" then "."
  else
    let cs := p.data.reverse.dropWhile (fun c => c = '/')
    if cs = [] then "/"
    else ⟨(cs.takeWhile (fun c => c ≠ '/')).reverse⟩

/-- Scanner of `filepath.Ext`: walk the path backwards; stop at a slash with
no extension, or return from the final dot (inclusive). -/
def goExtGo : List Char → List Char → String
  | [], _ => ""
  | c :: rest, acc =>
    if c = '/' then ""
    else if c = '.' then ⟨'.' :: acc⟩
    else goExtGo rest (c :: acc)

/-- `filepath.Ext`: the suffix beginning at the final dot in the final
element of the path; empty if there is none. -/
def goExt (p : String) : String :=
  goExtGo p.data.reverse []

/-- The search loop of `removeTrack`: walk the queue keeping the index of the
last non-matching element in `prev`; return the first matching index. -/
def removeScan : List Track → String → Nat → Nat → Option Nat × Nat
  | [], _, _, prev => (none, prev)
  | t :: rest, name, i, prev =>
    if goBase t.path = name then (some i, prev)
    else removeScan rest name (i + 1) i

/-- `removeTrack(trackName)` of main.go: find the first track whose base
filename equals the name; on a match re-anchor `currentTrack` to `prev` and
delete the element (`slices.Delete`).  No rebuild. -/
def removeTrack (s : Queue) (name : String) : Queue :=
  match removeScan s.queue name 0 0 with
  | (none, _) => s
  | (some idx, prev) =>
    { s with currentTrack := (prev : Int), queue := s.queue.eraseIdx idx }

/-- Errors of main.go (`errFormatUnsupported`, `errFileIsNotTrack`, and the
opaque I/O or decode errors propagated from the standard library). -/
inductive GoErr where
  | errFormatUnsupported
  | errFileIsNotTrack
  | ioError (msg : String)
deriving DecidableEq

/-- The environment a `loadTrack(trackPath)` call runs against: the results
of `os.Open`, `f.Stat`, `IsDir`, and `mp3.Decode` for that path.  On a decode
error Go still returns the zero-valued stream and format, which the code
stores before checking the error. -/
structure LoadEnv where
  path : String
  openErr : Option GoErr
  statErr : Option GoErr
  isDir : Bool
  decodeLen : Int
  decodeFormat : GoFormat
  decodeErr : Option GoErr
deriving DecidableEq

/-- `loadTrack(trackPath)` of main.go.  Mirrors the source order: extension
check, open, stat, directory check, decode; the track fields (including the
resampled view) are populated before the decode error is checked, and on any
error the zero track is returned together with the error. -/
def loadTrack (env : LoadEnv) : Track × Option GoErr :=
  let fileFormat := goExt env.path
  let fileFormat := if fileFormat ≠ "" then fileFormat.drop 1 else fileFormat
  if ¬ (fileFormat ∈ supportedFormats) then (emptyTrack, some GoErr.errFormatUnsupported)
  else
    match env.openErr with
    | some e => (emptyTrack, some e)
    | none =>
      match env.statErr with
      | some e => (emptyTrack, some e)
      | none =>
        if env.isDir then (emptyTrack, some GoErr.errFileIsNotTrack)
        else
          let s : Track :=
            { path := env.path, pos := 0, len := env.decodeLen,
              format := env.decodeFormat,
              resampled := loadResampler env.decodeFormat, ended := false }
          match env.decodeErr with
          | some e => (emptyTrack, some e)
          | none => (s, none)

/-- `math.Log10` on the domain the engine uses (arguments ≥ 0), idealized
over the reals: `none` stands for the `-Inf` produced at 0. -/
noncomputable def goLog10 (x : ℝ) : Option ℝ :=
  if x ≤ 0 then none else some (Real.logb 10 x)

/-- The stored `volume.Volume` as a function of `volumeChange`
(main.go line 227): `math.Log10(100 + float64(volumeChange)) - 2`. -/
noncomputable def gainOf (d : Int) : Option ℝ :=
  (goLog10 (100 + (d : ℝ))).map (fun g => g - 2)

/-- `math.Pow(10, y)` applied to a possibly `-Inf` exponent:
`10^(-Inf) = 0`. -/
noncomputable def goPow10 : Option ℝ → ℝ
  | none => 0
  | some y => (10 : ℝ) ^ y

/-- `getVolumePercents()` of main.go:
`int(math.Round(100 * math.Pow(s.volume.Base, s.volume.Volume)))` with
`Base = 10`.  On the values the engine reaches the rounded quantity is an
exact integer, so the float `Round` and the truncating `int` conversion agree
with `round`. -/
noncomputable def getVolumePercents (s : Queue) : Int :=
  round ((100 : ℝ) * goPow10 (gainOf s.volumeChange))

/-- Shape of a track value produced by a successful `loadTrack`: the decoder
is at position 0, the length is non-negative, and the flag is clear. -/
def loadedShape (t : Track) : Prop :=
  t.ended = false ∧ t.pos = 0 ∧ 0 ≤ t.len

/-- The condition under which the end-of-track callback fires a "next"
notification: the current track (if any) has been drained to its end. -/
def notifCond (s : Queue) : Bool :=
  (s.queue[s.currentTrack.toNat]?).all (fun t => t.pos == t.len)

/-- One engine operation, as invoked by the controller.  `manual = true`
additionally allows the user-initiated `nextTrack` on an unfinished track
(key "f"); with `manual = false` the `next` step only fires under the
end-of-track notification condition.  `consume` models the sink draining the
current stream: the decoder position of a track advances towards its
length. -/
inductive Step (manual : Bool) : Queue → Queue → Prop
  | add (s : Queue) (t : Track) : loadedShape t → Step manual s (addTrack s t)
  | remove (s : Queue) (name : String) : Step manual s (removeTrack s name)
  | next (s : Queue) : manual = true ∨ notifCond s = true →
      Step manual s (nextTrack s)
  | prev (s : Queue) : Step manual s (prevTrack s)
  | restartCur (s : Queue) : Step manual s (restartCurrentTrack s)
  | restartAll (s : Queue) : Step manual s (restartQueue s)
  | clear (s : Queue) : Step manual s (clearQueue s)
  | vol (s : Queue) (p : Int) : Step manual s (changeVolume s p)
  | playStep (s : Queue) : Step manual s (play s)
  | pauseStep (s : Queue) : Step manual s (pauseQ s)
  | unpauseStep (s : Queue) : Step manual s (unpauseQ s)
  | consume (s : Queue) (i : Nat) (t : Track) (p : Int) :
      s.queue[i]? = some t → t.pos ≤ p → p ≤ t.len →
      Step manual s { s with queue := s.queue.set i { t with pos := p } }

/-- States reachable from the freshly constructed queue. -/
inductive Reachable (manual : Bool) : Queue → Prop
  | init : Reachable manual initQueue
  | step {s s' : Queue} : Reachable manual s → Step manual s s' →
      Reachable manual s'

/-- The index invariant: an empty queue has index 0, a non-empty queue has
the index strictly inside the queue. -/
def queueInv (s : Queue) : Prop :=
  (s.queue = [] ∧ s.currentTrack = 0) ∨
    (0 ≤ s.currentTrack ∧ s.currentTrack < (s.queue.length : Int))

/-- The volume invariant: the accumulated deviation never drops below −100. -/
def volInv (s : Queue) : Prop :=
  -100 ≤ s.volumeChange

/-- The ended invariant of the spec: a track flagged `ended` has been fully
consumed. -/
def endedInv (s : Queue) : Prop :=
  ∀ t ∈ s.queue, t.ended = true → t.pos = t.len

/-- A freshly loaded 44100 Hz track, as `loadTrack` would produce it. -/
def trackA : Track :=
  { path := "a.mp3", pos := 0, len := 10, resampled := loadResampler ⟨44100⟩,
    format := ⟨44100⟩, ended := false }

/-- A second freshly loaded track. -/
def trackB : Track :=
  { path := "b.mp3", pos := 0, len := 20, resampled := loadResampler ⟨44100⟩,
    format := ⟨44100⟩, ended := false }

/-- A third freshly loaded track. -/
def trackC : Track :=
  { path := "c.mp3", pos := 0, len := 30, resampled := loadResampler ⟨44100⟩,
    format := ⟨44100⟩, ended := false }

/-- A queue of two tracks with the index on the first, used to exercise
`nextTrack` away from the tail. -/
def c2State : Queue :=
  addTrack (addTrack initQueue trackA) trackB

/-- Three tracks queued and `nextTrack` invoked twice: the current index sits
on the last track. -/
def c3State : Queue :=
  nextTrack (nextTrack (addTrack (addTrack (addTrack initQueue trackA) trackB) trackC))

/-- A track stopped in the middle of playback (position 5 of 10) with the
`ended` flag set. -/
def c5Track : Track :=
  { path := "mid.mp3", pos := 5, len := 10, resampled := loadResampler ⟨44100⟩,
    format := ⟨44100⟩, ended := true }

/-- A queue holding only `c5Track`. -/
def c5State : Queue :=
  { initQueue with queue := [c5Track] }

/-- A fully played 48000 Hz track (decoder position equals length), with the
resampled view built at load time. -/
def c6Track : Track :=
  { path := "hi.mp3", pos := 100, len := 100, resampled := loadResampler ⟨48000⟩,
    format := ⟨48000⟩, ended := true }

/-- A queue holding only `c6Track`. -/
def c6State : Queue :=
  { initQueue with queue := [c6Track] }

/-- A freshly loaded, unfinished track (position 0 of 100) skipped by a
manual `nextTrack`. -/
def c7Track : Track :=
  { path := "sk.mp3", pos := 0, len := 100, resampled := loadResampler ⟨44100⟩,
    format := ⟨44100⟩, ended := false }

/-- Manual `next` on a queue holding only the unfinished `c7Track`. -/
def c7State : Queue :=
  nextTrack (addTrack initQueue c7Track)

/-- A zero-length track: its decoder is at its end from the start, so the
end-of-track notification condition holds for it. -/
def c7NotifTrack : Track :=
  { path := "z.mp3", pos := 0, len := 0, resampled := loadResampler ⟨44100⟩,
    format := ⟨44100⟩, ended := false }

/-- Notification-driven `next` on a queue holding only `c7NotifTrack`. -/
def c7NotifState : Queue :=
  nextTrack (addTrack initQueue c7NotifTrack)

/-- A load environment whose mp3 decode step fails. -/
def c10Env : LoadEnv :=
  { path := "bad.mp3", openErr := none, statErr := none, isDir := false,
    decodeLen := 0, decodeFormat := ⟨44100⟩,
    decodeErr := some (GoErr.ioError ("decode failed")) }

/-- A queue of two distinct tracks, with the index on the first. -/
def c8State : Queue :=
  addTrack (addTrack initQueue trackA) trackB

/-- Claim C1: the composite stream installed by `rebuildStreamer` is exactly
the non-ended tracks in queue order, each contributing its resampled audio
followed by one end-of-track notification. -/
theorem rebuild_composite (s : Queue) :
    (rebuildStreamer s).installed =
      (s.queue.filter (fun t => !t.ended)).flatMap
        (fun t => [StreamElem.sound t.resampled, StreamElem.notif]) := by
  show (rebuildLoop s.queue).flatten = _
  induction s.queue with
  | nil => rfl
  | cons t rest ih =>
    by_cases h : t.ended <;>
      simp [rebuildLoop, List.filter_cons, h, ih, seqStreamers]

/-- `setEnded` never changes the queue length. -/
theorem setEnded_length (l : List Track) (i : Int) (b : Bool) :
    (setEnded l i b).length = l.length := by
  unfold setEnded
  split
  · rfl
  · split
    · rfl
    · exact List.length_set l _ _

/-- With the index in range, `setEnded` is the pointwise flag update. -/
theorem setEnded_eq_set (l : List Track) (i : Int) (t : Track) (b : Bool)
    (h0 : 0 ≤ i) (hget : l[i.toNat]? = some t) :
    setEnded l i b = l.set i.toNat { t with ended := b } := by
  unfold setEnded
  rw [if_neg (by omega), hget]

/-- Claim C2: `nextTrack` on an empty queue changes nothing; at the last
track it only sets that track's `ended` flag, leaving the index unchanged;
elsewhere it sets `ended` at the old index and increments the index by
exactly one. -/
theorem nextTrack_spec (s : Queue) (h0 : 0 ≤ s.currentTrack) :
    (s.queue = [] → nextTrack s = s) ∧
    (∀ t, s.queue[s.currentTrack.toNat]? = some t →
      (s.currentTrack = (s.queue.length : Int) - 1 →
        nextTrack s =
          { s with queue := s.queue.set s.currentTrack.toNat { t with ended := true } }) ∧
      (s.currentTrack + 1 < (s.queue.length : Int) →
        (nextTrack s).currentTrack = s.currentTrack + 1 ∧
        (nextTrack s).queue = s.queue.set s.currentTrack.toNat { t with ended := true })) := by
  constructor
  · intro hq
    unfold nextTrack
    simp only [hq, List.length_nil, ne_eq, not_true_eq_false, if_false,
      Nat.cast_zero]
    rw [if_pos (by omega)]
  · intro t ht
    have hlt : s.currentTrack.toNat < s.queue.length := by
      rcases List.getElem?_eq_some.1 ht with ⟨h, _⟩
      exact h
    have hlen0 : s.queue.length ≠ 0 := by omega
    have hse : setEnded s.queue s.currentTrack true =
        s.queue.set s.currentTrack.toNat { t with ended := true } :=
      setEnded_eq_set _ _ _ _ h0 ht
    constructor
    · intro hlast
      unfold nextTrack
      simp only [hlen0, ne_eq, not_false_eq_true, if_true, hse]
      rw [if_pos]
      simp only [List.length_set]
      omega
    · intro hmid
      unfold nextTrack
      simp only [hlen0, ne_eq, not_false_eq_true, if_true, hse]
      rw [if_neg]
      · constructor <;> rfl
      · simp only [List.length_set]
        omega

/-- Witness for C2: on a two-track queue with the index at the head,
`nextTrack` advances the index by one and flags the first track. -/
theorem nextTrack_spec_witness :
    (nextTrack c2State).currentTrack = c2State.currentTrack + 1 ∧
    (nextTrack c2State).queue =
      c2State.queue.set c2State.currentTrack.toNat { trackA with ended := true } :=
  ((nextTrack_spec c2State (by decide)).2 trackA (by decide)).2 (by decide)

/-- `restartTrack` never changes the queue length. -/
theorem restartTrack_length (s : Queue) (i : Int) :
    (restartTrack s i).queue.length = s.queue.length := by
  unfold restartTrack
  split
  · rfl
  · split
    · rfl
    · dsimp only
      split <;> simp [play, rebuildStreamer, List.length_set]

/-- `restartTrack` never changes the current index. -/
theorem restartTrack_currentTrack (s : Queue) (i : Int) :
    (restartTrack s i).currentTrack = s.currentTrack := by
  unfold restartTrack
  split
  · rfl
  · split
    · rfl
    · dsimp only
      split <;> simp [play, rebuildStreamer]

/-- `restartTrack` never changes the volume deviation. -/
theorem restartTrack_volumeChange (s : Queue) (i : Int) :
    (restartTrack s i).volumeChange = s.volumeChange := by
  unfold restartTrack
  split
  · rfl
  · split
    · rfl
    · dsimp only
      split <;> simp [play, rebuildStreamer]

/-- The restart loop of `restartQueue` preserves queue length, current index
and volume deviation. -/
theorem foldlRestart_fields (l : List Nat) (s : Queue) :
    (l.foldl (fun q (i : Nat) => restartTrack q (i : Int)) s).queue.length = s.queue.length ∧
    (l.foldl (fun q (i : Nat) => restartTrack q (i : Int)) s).currentTrack = s.currentTrack ∧
    (l.foldl (fun q (i : Nat) => restartTrack q (i : Int)) s).volumeChange = s.volumeChange := by
  induction l generalizing s with
  | nil => exact ⟨rfl, rfl, rfl⟩
  | cons x xs ih =>
    refine ⟨?_, ?_, ?_⟩
    · rw [List.foldl_cons, (ih _).1, restartTrack_length]
    · rw [List.foldl_cons, (ih _).2.1, restartTrack_currentTrack]
    · rw [List.foldl_cons, (ih _).2.2, restartTrack_volumeChange]

/-- A successful `removeTrack` scan finds the first matching index: the
returned index is the offset of the first track whose base name matches, and
the returned predecessor is the previous index (or the accumulator when the
match is immediate). -/
theorem removeScan_spec (l : List Track) (name : String) (i p k prev : Nat)
    (h : removeScan l name i p = (some k, prev)) :
    ∃ j t, j < l.length ∧ k = i + j ∧ l[j]? = some t ∧ goBase t.path = name ∧
      (∀ j2 u, j2 < j → l[j2]? = some u → goBase u.path ≠ name) ∧
      prev = (if j = 0 then p else i + (j - 1)) := by
  induction l generalizing i p with
  | nil =>
    rw [removeScan] at h
    exact absurd (congrArg Prod.fst h) (by simp)
  | cons x xs ih =>
    rw [removeScan] at h
    by_cases hx : goBase x.path = name
    · rw [if_pos hx] at h
      simp only [Prod.mk.injEq, Option.some.injEq] at h
      obtain ⟨hk, hp⟩ := h
      refine ⟨0, x, by simp, by omega, by simp, hx, ?_, by simp [hp]⟩
      intro j2 u hj2
      omega
    · rw [if_neg hx] at h
      obtain ⟨j, t, hj, hk, hget, hname, hnomatch, hprev⟩ := ih (i + 1) i h
      refine ⟨j + 1, t, by simpa using hj, by omega, by simpa using hget, hname, ?_, ?_⟩
      · intro j2 u hj2 hget2
        match j2, hget2 with
        | 0, hget2 =>
          simp only [List.getElem?_cons_zero, Option.some.injEq] at hget2
          exact hget2 ▸ hx
        | j2 + 1, hget2 =>
          exact hnomatch j2 u (by omega) (by simpa using hget2)
      · simp only [Nat.add_sub_cancel]
        rcases Nat.eq_zero_or_pos j with hj0 | hjpos
        · subst hj0
          simpa using hprev
        · rw [hprev, if_neg (by omega), if_neg (by omega)]
          omega

/-- If no track's base name matches, the scan finds nothing. -/
theorem removeScan_none (l : List Track) (name : String) (i p : Nat)
    (h : ∀ t ∈ l, goBase t.path ≠ name) :
    (removeScan l name i p).1 = none := by
  induction l generalizing i p with
  | nil => rfl
  | cons x xs ih =>
    rw [removeScan, if_neg (h x (by simp))]
    exact ih _ _ (fun t ht => h t (by simp [ht]))

/-- The scan finds the first match. -/
theorem removeScan_first (l : List Track) (name : String) (k : Nat) (t : Track)
    (hget : l[k]? = some t) (hname : goBase t.path = name)
    (hfirst : ∀ j u, j < k → l[j]? = some u → goBase u.path ≠ name) :
    ∀ i p, removeScan l name i p = (some (i + k), if k = 0 then p else i + (k - 1)) := by
  induction l generalizing k with
  | nil => simp at hget
  | cons x xs ih =>
    intro i p
    match k, hget with
    | 0, hget =>
      simp only [List.getElem?_cons_zero, Option.some.injEq] at hget
      subst hget
      rw [removeScan, if_pos hname]
      simp
    | k + 1, hget =>
      have hx : goBase x.path ≠ name := hfirst 0 x (by omega) (by simp)
      rw [removeScan, if_neg hx]
      rw [ih k (by simpa using hget)
        (fun j u hj hg => hfirst (j + 1) u (by omega) (by simpa using hg)) (i + 1) i]
      rcases Nat.eq_zero_or_pos k with hk0 | hkpos
      · subst hk0
        simp
      · rw [if_neg (by omega), if_neg (by omega)]
        simp only [Prod.mk.injEq, Option.some.injEq]
        omega

/-- Transport of the index invariant along operations that keep the queue
length and the index. -/
theorem queueInv_of_fields (s s' : Queue)
    (hlen : s'.queue.length = s.queue.length)
    (hct : s'.currentTrack = s.currentTrack) (h : queueInv s) : queueInv s' := by
  rcases h with ⟨h1, h2⟩ | ⟨h1, h2⟩
  · left
    refine ⟨List.length_eq_zero.1 ?_, by rw [hct]; exact h2⟩
    rw [hlen, h1]
    rfl
  · right
    refine ⟨hct ▸ h1, ?_⟩
    rw [hct, hlen]
    exact h2

/-- `addTrack` preserves the index invariant. -/
theorem queueInv_addTrack (s : Queue) (t : Track) (h : queueInv s) :
    queueInv (addTrack s t) := by
  have hlen : (addTrack s t).queue.length = s.queue.length + 1 := by
    simp [addTrack, rebuildStreamer]
  have hct : (addTrack s t).currentTrack = s.currentTrack := rfl
  right
  rcases h with ⟨h1, h2⟩ | ⟨h1, h2⟩
  · rw [hct, hlen, h2, h1]
    constructor <;> simp
  · rw [hct, hlen]
    refine ⟨h1, ?_⟩
    have := h2
    omega

/-- `nextTrack` preserves the index invariant. -/
theorem queueInv_nextTrack (s : Queue) (h : queueInv s) :
    queueInv (nextTrack s) := by
  rcases h with ⟨h1, h2⟩ | ⟨h1, h2⟩
  · have hns : nextTrack s = s := by
      unfold nextTrack
      simp only [h1, List.length_nil, ne_eq, not_true_eq_false, if_false, Nat.cast_zero]
      rw [if_pos (by omega)]
    rw [hns]
    exact Or.inl ⟨h1, h2⟩
  · have hne : s.queue.length ≠ 0 := by omega
    unfold nextTrack
    simp only [hne, ne_eq, not_false_eq_true, if_true]
    have hlen' : (setEnded s.queue s.currentTrack true).length = s.queue.length :=
      setEnded_length _ _ _
    by_cases hg : s.currentTrack + 1 ≥ ((setEnded s.queue s.currentTrack true).length : Int)
    · rw [if_pos hg]
      right
      exact ⟨h1, by rw [hlen']; exact h2⟩
    · rw [if_neg hg]
      right
      refine ⟨?_, ?_⟩
      · show (0 : Int) ≤ s.currentTrack + 1
        omega
      · show s.currentTrack + 1 < ((setEnded s.queue s.currentTrack true).length : Int)
        omega

/-- `prevTrack` preserves the index invariant. -/
theorem queueInv_prevTrack (s : Queue) (h : queueInv s) :
    queueInv (prevTrack s) := by
  by_cases hg : s.currentTrack - 1 < 0
  · unfold prevTrack
    rw [if_pos hg]
    exact h
  · unfold prevTrack
    rw [if_neg hg]
    rcases h with ⟨h1, h2⟩ | ⟨h1, h2⟩
    · exact absurd hg (by omega)
    · right
      refine ⟨?_, ?_⟩
      · show (0 : Int) ≤ s.currentTrack - 1
        omega
      · show s.currentTrack - 1 < ((setEnded s.queue (s.currentTrack - 1) false).length : Int)
        rw [setEnded_length]
        omega

/-- `restartTrack` preserves the index invariant. -/
theorem queueInv_restartTrack (s : Queue) (i : Int) (h : queueInv s) :
    queueInv (restartTrack s i) :=
  queueInv_of_fields s _ (restartTrack_length s i) (restartTrack_currentTrack s i) h

/-- `restartCurrentTrack` preserves the index invariant. -/
theorem queueInv_restartCur (s : Queue) (h : queueInv s) :
    queueInv (restartCurrentTrack s) := by
  unfold restartCurrentTrack
  split
  · exact h
  · exact queueInv_restartTrack s _ h

/-- `restartQueue` preserves the index invariant (it resets the index
to 0). -/
theorem queueInv_restartAll (s : Queue) :
    queueInv (restartQueue s) := by
  have hlen : (restartQueue s).queue.length = s.queue.length := by
    unfold restartQueue
    show ((List.range s.queue.length).foldl _ s).queue.length = _
    exact (foldlRestart_fields _ _).1
  have hct : (restartQueue s).currentTrack = 0 := rfl
  by_cases hq : s.queue.length = 0
  · left
    refine ⟨List.length_eq_zero.1 (by rw [hlen, hq]), hct⟩
  · right
    rw [hct, hlen]
    exact ⟨le_refl 0, by omega⟩

/-- `removeTrack` preserves the index invariant: the index is re-anchored
to the predecessor of the removed element. -/
theorem queueInv_removeTrack (s : Queue) (name : String) (h : queueInv s) :
    queueInv (removeTrack s name) := by
  unfold removeTrack
  rcases hscan : removeScan s.queue name 0 0 with ⟨fst, prev⟩
  cases fst with
  | none => exact h
  | some k =>
    obtain ⟨j, t, hj, hk, hget, hname, hno, hprev⟩ :=
      removeScan_spec _ _ _ _ _ _ hscan
    have hklen : k < s.queue.length := by omega
    have hlen : (s.queue.eraseIdx k).length = s.queue.length - 1 := by
      rw [List.length_eraseIdx]
      simp [hklen]
    by_cases hone : s.queue.length = 1
    · left
      have hkz : k = 0 := by omega
      have hjz : j = 0 := by omega
      constructor
      · show s.queue.eraseIdx k = []
        exact List.length_eq_zero.1 (by omega)
      · show ((prev : Nat) : Int) = 0
        rw [hprev, hjz]
        simp
    · right
      have hlen2 : 2 ≤ s.queue.length := by omega
      constructor
      · show (0 : Int) ≤ ((prev : Nat) : Int)
        omega
      · show ((prev : Nat) : Int) < ((s.queue.eraseIdx k).length : Int)
        rw [hlen, hprev]
        split <;> omega

/-- `clearQueue` preserves the index invariant. -/
theorem queueInv_clear (s : Queue) : queueInv (clearQueue s) :=
  Or.inl ⟨rfl, rfl⟩

/-- `prevTrack` leaves the index in place or moves it down by exactly one. -/
theorem prevTrack_delta (s : Queue) :
    (prevTrack s).currentTrack = s.currentTrack ∨
      (prevTrack s).currentTrack = s.currentTrack - 1 := by
  unfold prevTrack
  split
  · exact Or.inl rfl
  · exact Or.inr rfl

/-- `nextTrack` leaves the index in place or moves it up by exactly one. -/
theorem nextTrack_delta (s : Queue) :
    (nextTrack s).currentTrack = s.currentTrack ∨
      (nextTrack s).currentTrack = s.currentTrack + 1 := by
  unfold nextTrack
  by_cases hA : s.queue.length ≠ 0
  · rw [if_pos hA]
    by_cases hB : s.currentTrack + 1 ≥ ((setEnded s.queue s.currentTrack true).length : Int)
    · rw [if_pos hB]
      exact Or.inl rfl
    · rw [if_neg hB]
      exact Or.inr rfl
  · rw [if_neg hA]
    by_cases hB : s.currentTrack + 1 ≥ (s.queue.length : Int)
    · rw [if_pos hB]
      exact Or.inl rfl
    · rw [if_neg hB]
      exact Or.inr rfl

/-- `changeVolume` does not touch the queue. -/
theorem changeVolume_queue (s : Queue) (p : Int) :
    (changeVolume s p).queue = s.queue := by
  unfold changeVolume
  split <;> rfl

/-- `changeVolume` does not touch the index. -/
theorem changeVolume_currentTrack (s : Queue) (p : Int) :
    (changeVolume s p).currentTrack = s.currentTrack := by
  unfold changeVolume
  split <;> rfl

/-- Accepted or rejected, `changeVolume` keeps the deviation at or above
−100. -/
theorem volInv_changeVolume (s : Queue) (p : Int) (h : volInv s) :
    volInv (changeVolume s p) := by
  unfold changeVolume
  split
  · exact h
  · show -100 ≤ s.volumeChange + p
    omega

/-- `removeTrack` does not touch the volume deviation. -/
theorem removeTrack_volumeChange (s : Queue) (name : String) :
    (removeTrack s name).volumeChange = s.volumeChange := by
  unfold removeTrack
  rcases hscan : removeScan s.queue name 0 0 with ⟨fst, prev⟩
  cases fst <;> rfl

/-- `nextTrack` does not touch the volume deviation. -/
theorem nextTrack_volumeChange (s : Queue) :
    (nextTrack s).volumeChange = s.volumeChange := by
  unfold nextTrack
  dsimp only
  split <;> split <;> rfl

/-- `prevTrack` does not touch the volume deviation. -/
theorem prevTrack_volumeChange (s : Queue) :
    (prevTrack s).volumeChange = s.volumeChange := by
  unfold prevTrack
  split <;> rfl

/-- `restartCurrentTrack` does not touch the volume deviation. -/
theorem restartCur_volumeChange (s : Queue) :
    (restartCurrentTrack s).volumeChange = s.volumeChange := by
  unfold restartCurrentTrack
  split
  · rfl
  · exact restartTrack_volumeChange s _

/-- `restartQueue` does not touch the volume deviation. -/
theorem restartAll_volumeChange (s : Queue) :
    (restartQueue s).volumeChange = s.volumeChange := by
  unfold restartQueue
  show ((List.range s.queue.length).foldl _ s).volumeChange = _
  exact (foldlRestart_fields _ _).2.2

/-- Every engine step preserves the index and volume invariants. -/
theorem step_inv (m : Bool) (s s' : Queue) (hs : Step m s s')
    (h : queueInv s ∧ volInv s) : queueInv s' ∧ volInv s' := by
  obtain ⟨hq, hv⟩ := h
  cases hs with
  | add t ht => exact ⟨queueInv_addTrack s t hq, hv⟩
  | remove name =>
    exact ⟨queueInv_removeTrack s name hq,
      by show volInv _; unfold volInv; rw [removeTrack_volumeChange]; exact hv⟩
  | next hn =>
    exact ⟨queueInv_nextTrack s hq,
      by show volInv _; unfold volInv; rw [nextTrack_volumeChange]; exact hv⟩
  | prev =>
    exact ⟨queueInv_prevTrack s hq,
      by show volInv _; unfold volInv; rw [prevTrack_volumeChange]; exact hv⟩
  | restartCur =>
    exact ⟨queueInv_restartCur s hq,
      by show volInv _; unfold volInv; rw [restartCur_volumeChange]; exact hv⟩
  | restartAll =>
    exact ⟨queueInv_restartAll s,
      by show volInv _; unfold volInv; rw [restartAll_volumeChange]; exact hv⟩
  | clear => exact ⟨queueInv_clear s, hv⟩
  | vol p =>
    refine ⟨queueInv_of_fields s _ ?_ (changeVolume_currentTrack s p) hq,
      volInv_changeVolume s p hv⟩
    rw [changeVolume_queue]
  | playStep => exact ⟨queueInv_of_fields s _ rfl rfl hq, hv⟩
  | pauseStep => exact ⟨queueInv_of_fields s _ rfl rfl hq, hv⟩
  | unpauseStep => exact ⟨queueInv_of_fields s _ rfl rfl hq, hv⟩
  | consume i t p hget hple hple2 =>
    exact ⟨queueInv_of_fields s _ (by simp [List.length_set]) rfl hq, hv⟩

/-- Every reachable state satisfies the index and volume invariants. -/
theorem reachable_inv (m : Bool) (s : Queue) (h : Reachable m s) :
    queueInv s ∧ volInv s := by
  induction h with
  | init => exact ⟨Or.inl ⟨rfl, rfl⟩, by show (-100 : Int) ≤ 0; decide⟩
  | step hr hs ih => exact step_inv _ _ _ hs ih

/-- `restartCurrentTrack` never changes the index. -/
theorem restartCur_currentTrack (s : Queue) :
    (restartCurrentTrack s).currentTrack = s.currentTrack := by
  unfold restartCurrentTrack
  split
  · rfl
  · exact restartTrack_currentTrack s _

/-- Claim C3 (amended): in every reachable state the index is inside
`[0, len)` whenever the queue is non-empty (and 0 on an empty queue), so
`getCurrentTrack` never hits the out-of-range panic; `nextTrack`,
`prevTrack` and `restartCurrentTrack` change the index by at most one,
while `restartQueue` resets it to 0 (a jump that may exceed one). -/
theorem queue_index_safe (m : Bool) (s : Queue) (h : Reachable m s) :
    ((s.queue = [] ∧ s.currentTrack = 0) ∨
      (0 ≤ s.currentTrack ∧ s.currentTrack < (s.queue.length : Int))) ∧
    (s.queue ≠ [] → ∃ t, getCurrentTrack s = some (t, true)) ∧
    ((nextTrack s).currentTrack = s.currentTrack ∨
      (nextTrack s).currentTrack = s.currentTrack + 1) ∧
    ((prevTrack s).currentTrack = s.currentTrack ∨
      (prevTrack s).currentTrack = s.currentTrack - 1) ∧
    (restartCurrentTrack s).currentTrack = s.currentTrack ∧
    (restartQueue s).currentTrack = 0 := by
  obtain ⟨hq, _⟩ := reachable_inv m s h
  refine ⟨hq, ?_, nextTrack_delta s, prevTrack_delta s, restartCur_currentTrack s, rfl⟩
  intro hne
  rcases hq with ⟨h1, _⟩ | ⟨h1, h2⟩
  · exact absurd h1 hne
  · have hlen0 : s.queue.length ≠ 0 := by
      intro hc
      exact hne (List.length_eq_zero.1 hc)
    have hlt : s.currentTrack.toNat < s.queue.length := by omega
    refine ⟨s.queue[s.currentTrack.toNat], ?_⟩
    unfold getCurrentTrack
    rw [if_neg hlen0, if_neg (by omega), List.getElem?_eq_getElem hlt]
    rfl

/-- Witness for C3 at the reachable one-track state. -/
theorem queue_index_safe_witness :
    (((addTrack initQueue trackA).queue = [] ∧
        (addTrack initQueue trackA).currentTrack = 0) ∨
      (0 ≤ (addTrack initQueue trackA).currentTrack ∧
        (addTrack initQueue trackA).currentTrack <
          ((addTrack initQueue trackA).queue.length : Int))) ∧
    ((addTrack initQueue trackA).queue ≠ [] →
      ∃ t, getCurrentTrack (addTrack initQueue trackA) = some (t, true)) ∧
    ((nextTrack (addTrack initQueue trackA)).currentTrack =
        (addTrack initQueue trackA).currentTrack ∨
      (nextTrack (addTrack initQueue trackA)).currentTrack =
        (addTrack initQueue trackA).currentTrack + 1) ∧
    ((prevTrack (addTrack initQueue trackA)).currentTrack =
        (addTrack initQueue trackA).currentTrack ∨
      (prevTrack (addTrack initQueue trackA)).currentTrack =
        (addTrack initQueue trackA).currentTrack - 1) ∧
    (restartCurrentTrack (addTrack initQueue trackA)).currentTrack =
      (addTrack initQueue trackA).currentTrack ∧
    (restartQueue (addTrack initQueue trackA)).currentTrack = 0 :=
  queue_index_safe true (addTrack initQueue trackA)
    (Reachable.step Reachable.init (Step.add initQueue trackA ⟨rfl, rfl, by decide⟩))

/-- Counterexample for C3 as stated: after queueing three tracks and calling
`nextTrack` twice the index is 2, and the navigation call `restartQueue`
(spec §4.3 lists it under navigation) moves it to 0 — a change of two, not
at most one. -/
theorem queue_index_jump_cex :
    Reachable true c3State ∧ c3State.currentTrack = 2 ∧
      (restartQueue c3State).currentTrack - c3State.currentTrack = -2 := by
  refine ⟨?_, by decide, by decide⟩
  exact Reachable.step
    (Reachable.step
      (Reachable.step
        (Reachable.step
          (Reachable.step Reachable.init (Step.add initQueue trackA ⟨rfl, rfl, by decide⟩))
          (Step.add _ trackB ⟨rfl, rfl, by decide⟩))
        (Step.add _ trackC ⟨rfl, rfl, by decide⟩))
      (Step.next _ (Or.inl rfl)))
    (Step.next _ (Or.inl rfl))

/-- Claim C4: `changeVolume` is a no-op exactly when the new deviation would
drop below −100; otherwise it stores the new deviation, sets the hard-mute
flag precisely at −100, and the gain presented to the volume stage is
`log10(100 + d) − 2` for the new deviation. -/
theorem changeVolume_spec (s : Queue) (delta : Int) :
    (s.volumeChange + delta < -100 → changeVolume s delta = s) ∧
    (¬ s.volumeChange + delta < -100 →
      (changeVolume s delta).volumeChange = s.volumeChange + delta ∧
      ((changeVolume s delta).volumeSilent = true ↔ s.volumeChange + delta = -100) ∧
      gainOf (changeVolume s delta).volumeChange =
        (goLog10 (100 + ((s.volumeChange + delta : Int) : ℝ))).map (fun g => g - 2)) := by
  constructor
  · intro h
    unfold changeVolume
    rw [if_pos h]
  · intro h
    unfold changeVolume
    rw [if_neg h]
    refine ⟨rfl, ?_, rfl⟩
    show ((s.volumeChange + delta) == -100) = true ↔ _
    simp [beq_iff_eq]

/-- Witness for C4: from the initial state, `change(−150)` is rejected while
`change(−100)` is accepted and sets the hard-mute flag. -/
theorem changeVolume_spec_witness :
    changeVolume initQueue (-150) = initQueue ∧
    (changeVolume initQueue (-100)).volumeChange = initQueue.volumeChange + (-100) ∧
    ((changeVolume initQueue (-100)).volumeSilent = true ↔
      initQueue.volumeChange + (-100) = -100) :=
  ⟨(changeVolume_spec initQueue (-150)).1 (by decide),
   ((changeVolume_spec initQueue (-100)).2 (by decide)).1,
   ((changeVolume_spec initQueue (-100)).2 (by decide)).2.1⟩

/-- Claim C5 (amended): on a track whose decoder is not at its end,
`restartTrack` clears the `ended` flag and seeks the decoder to position 0,
and changes nothing else: no resampler reconstruction, no rebuild of the
installed stream, no playback start. -/
theorem restart_not_at_end (s : Queue) (i : Nat) (t : Track)
    (hget : s.queue[i]? = some t) (hne : ¬ t.pos = t.len) :
    restartTrack s (i : Int) =
      { s with queue := s.queue.set i { t with ended := false, pos := 0 } } := by
  unfold restartTrack
  rw [if_neg (by omega : ¬ ((i : Int) < 0))]
  simp only [Int.toNat_natCast, hget]
  rw [if_neg (by simpa using hne)]

/-- Witness for C5: restarting the half-played track only clears the flag and
zeroes the position. -/
theorem restart_not_at_end_witness :
    restartTrack c5State ((0 : Nat) : Int) =
      { c5State with queue := c5State.queue.set 0 { c5Track with ended := false, pos := 0 } } :=
  restart_not_at_end c5State 0 c5Track (by decide) (by decide)

/-- Counterexample for C5 as stated: on the half-played track the restart is
not merely a flag clear — the decoder is seeked back to 0 unconditionally
(main.go line 190 runs before the end-of-stream check). -/
theorem restart_not_at_end_cex :
    restartTrack c5State 0 ≠ { c5State with queue := [{ c5Track with ended := false }] } ∧
    restartTrack c5State 0 = { c5State with queue := [{ c5Track with ended := false, pos := 0 }] } := by
  exact ⟨by decide, by decide⟩

/-- Claim C6 (code bug): on a fully played track `restartTrack` rebuilds the
resampled view with `beep.Resample(4, basicSampleRate, format.SampleRate, ...)`
— the from/to rates swapped with respect to the load-time construction
`beep.Resample(4, format.SampleRate, basicSampleRate, ...)` — so for a
48000 Hz source the reconstructed view converts 44100→48000 instead of
48000→44100. -/
theorem restart_resample_swapped :
    ((restartTrack c6State 0).queue.headD emptyTrack).resampled =
      restartResampler ⟨48000⟩ ∧
    loadResampler ⟨48000⟩ = (⟨4, 48000, 44100⟩ : Resampler) ∧
    restartResampler ⟨48000⟩ = (⟨4, 44100, 48000⟩ : Resampler) ∧
    restartResampler ⟨48000⟩ ≠ loadResampler ⟨48000⟩ := by
  exact ⟨by decide, by decide, by decide, by decide⟩

/-- The ended invariant transports along queue inclusion. -/
theorem endedInv_subset (s s' : Queue)
    (hsub : ∀ u ∈ s'.queue, u ∈ s.queue) (h : endedInv s) : endedInv s' :=
  fun u hu hue => h u (hsub u hu) hue

/-- A member of `setEnded l i b` is a member of `l` or the updated element. -/
theorem setEnded_mem (l : List Track) (i : Int) (b : Bool) (u : Track)
    (hu : u ∈ setEnded l i b) :
    u ∈ l ∨ ∃ t, l[i.toNat]? = some t ∧ u = { t with ended := b } := by
  by_cases hi : i < 0
  · unfold setEnded at hu
    rw [if_pos hi] at hu
    exact Or.inl hu
  · unfold setEnded at hu
    rw [if_neg hi] at hu
    rcases hE : l[i.toNat]? with _ | t
    · rw [hE] at hu
      exact Or.inl hu
    · rw [hE] at hu
      rcases List.mem_or_eq_of_mem_set hu with h | h
      · exact Or.inl h
      · exact Or.inr ⟨t, hE ▸ rfl, h⟩

/-- The queue after `nextTrack` is the old queue or the old queue with the
flag set at the current index. -/
theorem nextTrack_queue_cases (s : Queue) :
    (nextTrack s).queue = s.queue ∨
      (nextTrack s).queue = setEnded s.queue s.currentTrack true := by
  unfold nextTrack
  by_cases hA : s.queue.length ≠ 0
  · rw [if_pos hA]
    by_cases hB : s.currentTrack + 1 ≥ ((setEnded s.queue s.currentTrack true).length : Int)
    · rw [if_pos hB]
      exact Or.inr rfl
    · rw [if_neg hB]
      exact Or.inr rfl
  · rw [if_neg hA]
    by_cases hB : s.currentTrack + 1 ≥ (s.queue.length : Int)
    · rw [if_pos hB]
      exact Or.inl rfl
    · rw [if_neg hB]
      exact Or.inl rfl

/-- The queue after `prevTrack` is the old queue or the old queue with the
flag cleared at the new index. -/
theorem prevTrack_queue_cases (s : Queue) :
    (prevTrack s).queue = s.queue ∨
      (prevTrack s).queue = setEnded s.queue (s.currentTrack - 1) false := by
  unfold prevTrack
  by_cases hg : s.currentTrack - 1 < 0
  · rw [if_pos hg]
    exact Or.inl rfl
  · rw [if_neg hg]
    exact Or.inr rfl

/-- A notification-driven `nextTrack` preserves the ended invariant. -/
theorem endedInv_nextTrack (s : Queue) (hn : notifCond s = true)
    (h : endedInv s) : endedInv (nextTrack s) := by
  intro u hu hue
  rcases nextTrack_queue_cases s with hq | hq
  · exact h u (hq ▸ hu) hue
  · rw [hq] at hu
    rcases setEnded_mem _ _ _ _ hu with hmem | ⟨t, hget, hut⟩
    · exact h u hmem hue
    · unfold notifCond at hn
      rw [hget] at hn
      subst hut
      show t.pos = t.len
      simpa [Option.all] using hn

/-- `prevTrack` preserves the ended invariant (it only clears a flag). -/
theorem endedInv_prevTrack (s : Queue) (h : endedInv s) :
    endedInv (prevTrack s) := by
  intro u hu hue
  rcases prevTrack_queue_cases s with hq | hq
  · exact h u (hq ▸ hu) hue
  · rw [hq] at hu
    rcases setEnded_mem _ _ _ _ hu with hmem | ⟨t, hget, hut⟩
    · exact h u hmem hue
    · subst hut
      simp at hue

/-- `restartTrack` preserves the ended invariant (it only clears a flag and
zeroes a position). -/
theorem endedInv_restartTrack (s : Queue) (i : Int) (h : endedInv s) :
    endedInv (restartTrack s i) := by
  intro u hu hue
  unfold restartTrack at hu
  by_cases hi : i < 0
  · rw [if_pos hi] at hu
    exact h u hu hue
  · rw [if_neg hi] at hu
    rcases hE : s.queue[i.toNat]? with _ | t
    · rw [hE] at hu
      exact h u hu hue
    · rw [hE] at hu
      dsimp only at hu
      by_cases hw : (t.pos == t.len) = true
      · rw [if_pos hw] at hu
        simp only [play, rebuildStreamer] at hu
        rcases List.mem_or_eq_of_mem_set hu with hmem | hup
        · exact h u hmem hue
        · subst hup
          simp at hue
      · rw [if_neg hw] at hu
        simp only at hu
        rcases List.mem_or_eq_of_mem_set hu with hmem | hup
        · exact h u hmem hue
        · subst hup
          simp at hue

/-- The restart loop preserves the ended invariant. -/
theorem endedInv_foldlRestart (l : List Nat) (s : Queue) (h : endedInv s) :
    endedInv (l.foldl (fun q (i : Nat) => restartTrack q (i : Int)) s) := by
  induction l generalizing s with
  | nil => exact h
  | cons x xs ih =>
    rw [List.foldl_cons]
    exact ih _ (endedInv_restartTrack s _ h)

/-- `restartCurrentTrack` preserves the ended invariant. -/
theorem endedInv_restartCur (s : Queue) (h : endedInv s) :
    endedInv (restartCurrentTrack s) := by
  unfold restartCurrentTrack
  split
  · exact h
  · exact endedInv_restartTrack s _ h

/-- `restartQueue` preserves the ended invariant. -/
theorem endedInv_restartAll (s : Queue) (h : endedInv s) :
    endedInv (restartQueue s) := by
  intro u hu hue
  exact endedInv_foldlRestart (List.range s.queue.length) s h u hu hue

/-- `addTrack` with a freshly loaded track preserves the ended invariant. -/
theorem endedInv_addTrack (s : Queue) (t : Track) (ht : loadedShape t)
    (h : endedInv s) : endedInv (addTrack s t) := by
  intro u hu hue
  have hu2 : u ∈ s.queue ++ [t] := hu
  rcases List.mem_append.1 hu2 with hmem | hmem
  · exact h u hmem hue
  · have : u = t := by simpa using hmem
    subst this
    exact absurd hue (by rw [ht.1]; simp)

/-- `removeTrack` only removes elements. -/
theorem removeTrack_queue_sub (s : Queue) (name : String) :
    ∀ u ∈ (removeTrack s name).queue, u ∈ s.queue := by
  intro u hu
  unfold removeTrack at hu
  rcases hscan : removeScan s.queue name 0 0 with ⟨fst, prev⟩
  rw [hscan] at hu
  cases fst with
  | none => exact hu
  | some k => exact List.mem_of_mem_eraseIdx hu

/-- Every notification-disciplined engine step preserves the ended
invariant. -/
theorem step_endedInv (s s' : Queue) (hs : Step false s s')
    (h : endedInv s) : endedInv s' := by
  cases hs with
  | add t ht => exact endedInv_addTrack s t ht h
  | remove name => exact endedInv_subset s _ (removeTrack_queue_sub s name) h
  | next hn => exact endedInv_nextTrack s (hn.resolve_left (by simp)) h
  | prev => exact endedInv_prevTrack s h
  | restartCur => exact endedInv_restartCur s h
  | restartAll => exact endedInv_restartAll s h
  | clear => exact fun u hu => absurd hu (List.not_mem_nil u)
  | vol p =>
    refine endedInv_subset s _ (fun u hu => ?_) h
    rw [changeVolume_queue] at hu
    exact hu
  | playStep => exact fun u hu hue => h u hu hue
  | pauseStep => exact fun u hu hue => h u hu hue
  | unpauseStep => exact fun u hu hue => h u hu hue
  | consume i t p hget hple hple2 =>
    intro u hu hue
    rcases List.mem_or_eq_of_mem_set hu with hmem | hup
    · exact h u hmem hue
    · subst hup
      have htmem : t ∈ s.queue := by
        rcases List.getElem?_eq_some.1 hget with ⟨hl, he⟩
        exact he ▸ s.queue.getElem_mem hl
      have := h t htmem hue
      show p = t.len
      omega

/-- Claim C7 (amended): in every state reachable when `next` is driven only
by the end-of-track notification (the current track fully consumed), a track
flagged `ended` has decoder position equal to its length; a manual `next` on
an unfinished track violates the invariant (see the counterexample). -/
theorem ended_implies_consumed (s : Queue) (h : Reachable false s) :
    ∀ t ∈ s.queue, t.ended = true → t.pos = t.len := by
  induction h with
  | init => exact fun t ht => absurd ht (List.not_mem_nil t)
  | step hr hs ih => exact step_endedInv _ _ hs ih

/-- Witness for C7: the zero-length track, consumed and advanced by the
notification-driven `next`, is flagged and indeed at its end. -/
theorem ended_implies_consumed_witness :
    (c7NotifState.queue.headD emptyTrack).ended = true ∧
    (c7NotifState.queue.headD emptyTrack).pos =
      (c7NotifState.queue.headD emptyTrack).len :=
  ⟨by decide,
   ended_implies_consumed c7NotifState
     (Reachable.step
       (Reachable.step Reachable.init
         (Step.add initQueue c7NotifTrack ⟨rfl, rfl, by decide⟩))
       (Step.next _ (Or.inr (by decide))))
     _ (by decide) (by decide)⟩

/-- Counterexample for C7 as stated: a manual `nextTrack` (key "f") on an
unfinished track marks it ended while its decoder position is still 0, so the
invariant fails in a reachable state. -/
theorem ended_invariant_cex :
    Reachable true c7State ∧
    (c7State.queue.headD emptyTrack).ended = true ∧
    (c7State.queue.headD emptyTrack).pos ≠ (c7State.queue.headD emptyTrack).len := by
  refine ⟨?_, by decide, by decide⟩
  exact Reachable.step
    (Reachable.step Reachable.init
      (Step.add initQueue c7Track ⟨rfl, rfl, by decide⟩))
    (Step.next _ (Or.inl rfl))

/-- Mapping commutes with `eraseIdx`. -/
theorem eraseIdx_map_path (l : List Track) (k : Nat) :
    (l.eraseIdx k).map Track.path = (l.map Track.path).eraseIdx k := by
  induction l generalizing k with
  | nil => simp [List.eraseIdx]
  | cons x xs ih =>
    cases k with
    | zero => simp [List.eraseIdx]
    | succ k => simp [List.eraseIdx, ih]

/-- In a duplicate-free list, the element at an index does not survive the
erasure of that index. -/
theorem nodup_not_mem_eraseIdx {α : Type} (l : List α) (hnd : l.Nodup)
    (k : Nat) (b : α) (h : l[k]? = some b) : b ∉ l.eraseIdx k := by
  induction l generalizing k with
  | nil => simp at h
  | cons x xs ih =>
    rw [List.nodup_cons] at hnd
    cases k with
    | zero =>
      simp only [List.getElem?_cons_zero, Option.some.injEq] at h
      subst h
      simpa [List.eraseIdx] using hnd.1
    | succ k =>
      have hmem : b ∈ xs := by
        rcases List.getElem?_eq_some.1 (show xs[k]? = some b by simpa using h) with ⟨hl, he⟩
        exact he ▸ xs.getElem_mem hl
      intro hmem2
      rw [show (x :: xs).eraseIdx (k + 1) = x :: xs.eraseIdx k from rfl] at hmem2
      rcases List.mem_cons.1 hmem2 with heq | hmem2
      · exact hnd.1 (heq ▸ hmem)
      · exact ih hnd.2 k (by simpa using h) hmem2

/-- Claim C8: `removeTrack` is a no-op when no base filename matches; when
the first match is at index `k` it sets the index to `k − 1` (0 when `k = 0`)
and deletes that element, after which (queues having unique paths) the
removed track's path no longer occurs. -/
theorem removeTrack_spec (s : Queue) (name : String) :
    ((∀ t ∈ s.queue, goBase t.path ≠ name) → removeTrack s name = s) ∧
    (∀ (k : Nat) (t : Track), s.queue[k]? = some t → goBase t.path = name →
      (∀ (j : Nat) (u : Track), j < k → s.queue[j]? = some u → goBase u.path ≠ name) →
      (removeTrack s name).currentTrack = (if k = 0 then 0 else (k : Int) - 1) ∧
      (removeTrack s name).queue = s.queue.eraseIdx k ∧
      ((s.queue.map Track.path).Nodup →
        t.path ∉ (removeTrack s name).queue.map Track.path)) := by
  constructor
  · intro hno
    have h1 := removeScan_none s.queue name 0 0 hno
    unfold removeTrack
    rcases hscan : removeScan s.queue name 0 0 with ⟨fst, prev⟩
    rw [hscan] at h1
    simp only at h1
    subst h1
    rfl
  · intro k t hget hname hfirst
    have hscan := removeScan_first s.queue name k t hget hname hfirst 0 0
    have hq : (removeTrack s name).queue = s.queue.eraseIdx k := by
      unfold removeTrack
      rw [hscan]
      show s.queue.eraseIdx (0 + k) = s.queue.eraseIdx k
      rw [Nat.zero_add]
    refine ⟨?_, hq, ?_⟩
    · unfold removeTrack
      rw [hscan]
      show ((if k = 0 then (0 : Nat) else 0 + (k - 1) : Nat) : Int) =
        (if k = 0 then 0 else (k : Int) - 1)
      cases k with
      | zero => simp
      | succ k =>
        rw [if_neg (by omega), if_neg (by omega)]
        push_cast
        omega
    · intro hnd
      rw [hq, eraseIdx_map_path]
      apply nodup_not_mem_eraseIdx _ hnd
      rw [List.getElem?_map, hget]
      rfl

/-- Witness for C8: removing "b.mp3" from the two-track queue re-anchors the
index to 0 and erases index 1, and the path is gone. -/
theorem removeTrack_spec_witness :
    (removeTrack c8State ("b.mp3")).currentTrack =
      (if (1 : Nat) = 0 then 0 else ((1 : Nat) : Int) - 1) ∧
    (removeTrack c8State ("b.mp3")).queue = c8State.queue.eraseIdx 1 ∧
    ((c8State.queue.map Track.path).Nodup →
      trackB.path ∉ (removeTrack c8State ("b.mp3")).queue.map Track.path) := by
  refine (removeTrack_spec c8State ("b.mp3")).2 1 trackB (by decide) (by decide) ?_
  intro j u hj hg
  have hj0 : j = 0 := by omega
  subst hj0
  have h1 : some u = some trackA := by
    rw [← hg]
    decide
  have h2 := Option.some.inj h1
  subst h2
  decide

/-- The display computation inverts the gain computation exactly: for any
deviation at or above −100, `round(100 · 10^(log10(100+d) − 2)) = 100 + d`
(at −100 the float pipeline gives `-Inf` then 0, modelled by the `none`
branch). -/
theorem percent_exact (d : Int) (hd : -100 ≤ d) :
    round ((100 : ℝ) * goPow10 (gainOf d)) = 100 + d := by
  rcases eq_or_lt_of_le hd with h | h
  · rw [← h]
    have h0 : gainOf (-100) = none := by
      unfold gainOf goLog10
      norm_num
    rw [h0]
    simp [goPow10]
  · have hx : (0 : ℝ) < 100 + (d : ℝ) := by
      have hdr : (-100 : ℝ) < (d : ℝ) := by exact_mod_cast h
      linarith
    have hlog : goLog10 (100 + (d : ℝ)) = some (Real.logb 10 (100 + (d : ℝ))) := by
      unfold goLog10
      rw [if_neg (by linarith)]
    have hg : gainOf d = some (Real.logb 10 (100 + (d : ℝ)) - 2) := by
      unfold gainOf
      rw [hlog]
      rfl
    rw [hg]
    show round ((100 : ℝ) * (10 : ℝ) ^ (Real.logb 10 (100 + (d : ℝ)) - 2)) = 100 + d
    rw [Real.rpow_sub (by norm_num : (0 : ℝ) < 10),
      Real.rpow_logb (by norm_num) (by norm_num) hx]
    have h2 : (10 : ℝ) ^ (2 : ℝ) = 100 := by
      rw [show (2 : ℝ) = ((2 : ℕ) : ℝ) by norm_num, Real.rpow_natCast]
      norm_num
    rw [h2]
    have h3 : (100 : ℝ) * ((100 + (d : ℝ)) / 100) = ((100 + d : Int) : ℝ) := by
      push_cast
      ring
    rw [h3, round_intCast]

/-- Claim C9: in every reachable state (the accumulated deviation of the
accepted `changeVolume` calls, never below −100), `getVolumePercents`
returns exactly `100 + d` — it inverts the accumulated changes. -/
theorem percent_inverts (m : Bool) (s : Queue) (h : Reachable m s) :
    getVolumePercents s = 100 + s.volumeChange := by
  obtain ⟨_, hv⟩ := reachable_inv m s h
  exact percent_exact s.volumeChange hv

/-- Witness for C9 at the reachable state after `change(50)`. -/
theorem percent_inverts_witness :
    getVolumePercents (changeVolume initQueue 50) =
      100 + (changeVolume initQueue 50).volumeChange :=
  percent_inverts true _ (Reachable.step Reachable.init (Step.vol initQueue 50))

/-- Claim C10: when the extension check, open, stat and directory checks all
pass but the mp3 decode step fails, `loadTrack` returns the zero track
together with that decode error — the resampler wrapper built before the
error check does not disturb the propagation. -/
theorem loadTrack_decode_err (env : LoadEnv) (e : GoErr)
    (hfmt : (if goExt env.path ≠ "" then (goExt env.path).drop 1
      else goExt env.path) ∈ supportedFormats)
    (hopen : env.openErr = none) (hstat : env.statErr = none)
    (hdir : env.isDir = false) (hdec : env.decodeErr = some e) :
    loadTrack env = (emptyTrack, some e) := by
  unfold loadTrack
  rw [if_neg (not_not_intro hfmt), hopen, hstat, if_neg (by rw [hdir]; simp), hdec]

/-- Witness for C10 at a concrete decode-failure environment. -/
theorem loadTrack_decode_err_witness :
    loadTrack c10Env = (emptyTrack, some (GoErr.ioError ("decode failed"))) :=
  loadTrack_decode_err c10Env (GoErr.ioError ("decode failed"))
    (by decide) rfl rfl rfl rfl
